import Mathlib

/-!
Verification of the tsrust tree-sequence library.

The Rust sources are shallowly embedded: `usize`/`u64` become `Nat` (the
code performs no wrapping arithmetic on them — only comparisons and a
`+ 1` on node ids), `Vec<T>` becomes `List T`, and the two operations that
can `panic` (`TreeSequence::add_edge` on a duplicate edge, and the builder
methods that call it) return `Option`, with `none` standing for the panic.
The possibly non-terminating ancestor walk of `Tree::mrca` is embedded
with an explicit fuel argument: `none` means the fuel ran out, i.e. the
Rust loop is still running after that many iterations, so "the Rust call
terminates" is "some fuel makes the embedding return `some`".
-/

namespace TsRust

/-- Embeds `Edge` from `src/edge.rs`: parent, child and the half-open
genomic interval `[left, right)`.  The derived `DecidableEq` mirrors the
derived `PartialEq`/`Eq` of the Rust struct, which compares all four
fields. -/
structure Edge where
  parent : Nat
  child : Nat
  left : Nat
  right : Nat
  deriving DecidableEq, Repr

/-- The sort key used by `impl Ord for Edge`:
`(self.left, self.parent, self.child)` — `right` does not participate. -/
def edgeKey (e : Edge) : Nat × Nat × Nat := (e.left, e.parent, e.child)

/-- The strict order on edges induced by `impl Ord for Edge`, i.e. the
lexicographic order of `(left, parent, child)`. -/
abbrev edgeKeyLt (a b : Edge) : Prop :=
  a.left < b.left ∨
    (a.left = b.left ∧
      (a.parent < b.parent ∨ (a.parent = b.parent ∧ a.child < b.child)))

/-- Embeds `TreeSequence` from `src/treeseq.rs`. -/
structure TreeSequence where
  num_nodes : Nat
  edges : List Edge
  deriving DecidableEq, Repr

/-- `TreeSequence::new`. -/
def TreeSequence.new : TreeSequence := ⟨0, []⟩

/-- Inserts `e` in front of the first stored edge that is not strictly
below it in the `(left, parent, child)` order.  On a sorted edge list this
is insertion at the index `Vec::binary_search` reports in its `Err`
result. -/
def sortedInsertEdge (e : Edge) : List Edge → List Edge
  | [] => [e]
  | b :: l => if edgeKeyLt b e then b :: sortedInsertEdge e l else e :: b :: l

/-- Embeds `TreeSequence::add_edge`.  `none` is the
`panic!("Cannot have duplicate edges")` abort.

`self.edges.binary_search(&e)` is modelled by its documented contract:
`edges` is kept sorted in the `(left, parent, child)` order by this very
function (the reachability invariant proved below), and on a sorted list
`binary_search`
returns `Ok` exactly when some stored edge compares equal to the probe
under that order — the probe's `right` is never consulted — and otherwise
`Err` with the position at which inserting keeps the list sorted.  (On an
unsorted list the Rust result is documented as unspecified, and no
unsorted `TreeSequence` is constructible through the public API.) -/
def addEdge (ts : TreeSequence) (child parent left right : Nat) :
    Option TreeSequence :=
  if ts.edges.any (fun e2 => edgeKey e2 == edgeKey ⟨parent, child, left, right⟩)
  then none
  else
    some ⟨Nat.max ts.num_nodes (Nat.max child parent + 1),
          sortedInsertEdge ⟨parent, child, left, right⟩ ts.edges⟩

/-- Embeds `Tree` from `src/tree.rs`: the parent-pointer array. -/
structure Tree where
  parent : List (Option Nat)
  deriving DecidableEq, Repr

/-- Embeds the method `Tree::parent`:
`self.parent.get(u)?.clone()` — an out-of-bounds index yields `None`
(the `?` early return), otherwise the stored entry. -/
def Tree.parentOf (t : Tree) (u : Nat) : Option Nat :=
  match t.parent.get? u with
  | none => none
  | some v => v

/-- Embeds `Tree::ancestor_chain` with fuel: the Rust `while let` loop
pushes parents until a parentless node is reached, and never checks for
cycles.  `none` means the loop is still running after `fuel` iterations.
When the result is `some c`, `c` is exactly the Rust chain
`[x, parent(x), parent(parent(x)), …, root]` and is non-empty. -/
def Tree.ancestorChain (t : Tree) : Nat → Nat → Option (List Nat)
  | _, 0 => none
  | x, fuel + 1 =>
    match t.parentOf x with
    | none => some [x]
    | some p => (t.ancestorChain p fuel).map (fun c => x :: c)

/-- Embeds the `while i < cmp::min(u_len, v_len)` loop of `Tree::mrca`,
walking both chains from their root ends.  `steps` is the number of loop
iterations left, i.e. `min u_len v_len - i`. -/
def mrcaLoop (uAnc vAnc : List Nat) : Nat → Nat → Nat → Nat
  | common, 0, _ => common
  | common, steps + 1, i =>
    if uAnc.getD (uAnc.length - i - 1) 0 ≠ vAnc.getD (vAnc.length - i - 1) 0
    then common
    else mrcaLoop uAnc vAnc (uAnc.getD (uAnc.length - i - 1) 0) steps (i + 1)

/-- Embeds `Tree::mrca` with fuel for the two ancestor-chain walks.
The inner `Option Nat` is the Rust return value (`None` = the two nodes
are under different roots); the outer `Option` is the fuel: `none` means
at least one chain walk is still running.  `u_anc.last().unwrap()` is
modelled by `getLastD _ 0`; a completed chain is non-empty, so the default
is never read. -/
def Tree.mrca (t : Tree) (u v : Nat) (fuel : Nat) : Option (Option Nat) :=
  match t.ancestorChain u fuel, t.ancestorChain v fuel with
  | some uAnc, some vAnc =>
    if uAnc.getLastD 0 ≠ vAnc.getLastD 0 then some none
    else
      some (some (mrcaLoop uAnc vAnc (uAnc.getLastD 0)
        (Nat.min uAnc.length vAnc.length) 0))
  | _, _ => none

/-- The Rust `mrca(u, v)` call on `t` runs forever: however much fuel the
embedding is given, the ancestor walk has not finished. -/
def mrcaDiverges (t : Tree) (u v : Nat) : Prop :=
  ∀ fuel, t.mrca u v fuel = none

/-- Parent arrays in which every recorded parent has a strictly larger id
than its child — the usual genealogical numbering, satisfied by every tree
in the repository's own tests.  Under it the ancestor walk cannot cycle. -/
def StrictParents (t : Tree) : Prop :=
  ∀ u p, t.parentOf u = some p → u < p

/-- The two-node cycle `Tree::new(vec![Some(1), Some(0)])`. -/
def cycTree : Tree := ⟨[some 1, some 0]⟩

/-! ## The sweep iterator (`TreeSequenceIterator`, `src/treeseq.rs`) -/

/-- Embeds the state of `TreeSequenceIterator`.  The Rust iterator stores
`upcoming_edges` reversed and pops from the back; here the list is kept in
ascending edge order and consumed from the front, which is the same
sequence of edges. -/
structure TreeSequenceIterator where
  num_nodes : Nat
  current_edges : List Edge
  upcoming_edges : List Edge
  deriving DecidableEq, Repr

/-- Embeds `TreeSequence::iter`. -/
def TreeSequence.iter (ts : TreeSequence) : TreeSequenceIterator :=
  ⟨ts.num_nodes, [], ts.edges⟩

/-- The `right` of `self.current_edges.iter().min_by_key(|&&e| e.right)`:
the smallest right endpoint among the active edges, `none` on an empty
active set. -/
def minRight : List Edge → Option Nat
  | [] => none
  | e :: rest =>
    match minRight rest with
    | none => some e.right
    | some m => some (Nat.min e.right m)

/-- Embeds the incoming-edge `while` loop of `next`: keep moving the next
upcoming edge into the active set while its `left` does not exceed
`new_right` (the `left` of the first upcoming edge).  Returns the new
active and upcoming lists. -/
def pullAux (nr : Nat) : List Edge → List Edge → List Edge × List Edge
  | current, [] => (current, [])
  | current, e :: rest =>
    if nr < e.left then (current, e :: rest)
    else pullAux nr (current ++ [e]) rest

/-- Builds the parent array of step 4 of the sweep: start from
`num_nodes` roots and record `parent[e.child] = Some(e.parent)` for every
active edge.  The Rust indexing `parent[e.child]` panics when
`e.child ≥ num_nodes`; `TreeSequence::add_edge` keeps
`num_nodes > child` for every stored edge, so for every iterator obtained
from `TreeSequence::iter` the write is in bounds and equals `List.set`
(which is used here and is a no-op out of bounds). -/
def buildParent (n : Nat) (edges : List Edge) : List (Option Nat) :=
  edges.foldl (fun acc e => acc.set e.child (some e.parent))
    (List.replicate n none)

/-- Embeds one call of `<TreeSequenceIterator as Iterator>::next`:
evict every active edge whose `right` equals the minimum active `right`,
pull in every upcoming edge whose `left` equals the smallest upcoming
`left`, stop if nothing remains, otherwise yield the materialized tree
and the advanced state. -/
def stepTree (s : TreeSequenceIterator) :
    Option (Tree × TreeSequenceIterator) :=
  let current1 :=
    match minRight s.current_edges with
    | none => s.current_edges
    | some mr => s.current_edges.filter (fun e => mr < e.right)
  let pulled :=
    match s.upcoming_edges with
    | [] => (current1, ([] : List Edge))
    | e :: rest => pullAux e.left current1 (e :: rest)
  if pulled.1.isEmpty && pulled.2.isEmpty then none
  else
    some (⟨buildParent s.num_nodes pulled.1⟩,
          ⟨s.num_nodes, pulled.1, pulled.2⟩)

/-- Runs the iterator at most `fuel` steps, collecting the yielded trees. -/
def treesAux : Nat → TreeSequenceIterator → List Tree
  | 0, _ => []
  | fuel + 1, s =>
    match stepTree s with
    | none => []
    | some (t, s') => t :: treesAux fuel s'

/-- Strictly decreasing measure of the iterator state: each yielded step
consumes at least one event (an eviction or an arrival); see
`stepTree_measure`. -/
def iterMeasure (s : TreeSequenceIterator) : Nat :=
  2 * s.upcoming_edges.length + s.current_edges.length

/-- The full, finite sequence of trees yielded by iterating `ts`: by
`stepTree_measure` and `treesAux_stable`, `iterMeasure ts.iter + 1` steps
of fuel always suffice to drive the iterator to exhaustion. -/
def treesList (ts : TreeSequence) : List Tree :=
  treesAux (iterMeasure ts.iter + 1) ts.iter

/-! ## The builder (`TreeSequenceBuilder`, `src/treeseqbuilder.rs`) -/

/-- Embeds `TreeSequenceBuilder`: the tree sequence under construction,
the genomic cursor, and the open edges as `(child, parent, left)`
triples in insertion order. -/
structure TreeSequenceBuilder where
  ts : TreeSequence
  last_breakpoint : Nat
  curr_edges : List (Nat × Nat × Nat)
  deriving DecidableEq, Repr

/-- `TreeSequenceBuilder::new`. -/
def TreeSequenceBuilder.new : TreeSequenceBuilder :=
  ⟨TreeSequence.new, 0, []⟩

/-- Embeds `TreeSequenceBuilder::insert`: open one edge
`(c, parent, left = cursor)` per child, with no check whether the child
already has an open edge. -/
def TreeSequenceBuilder.insert (b : TreeSequenceBuilder)
    (children : List Nat) (parent : Nat) : TreeSequenceBuilder :=
  { b with curr_edges :=
      b.curr_edges ++ children.map (fun c => (c, parent, b.last_breakpoint)) }

/-- Embeds `TreeSequenceBuilder::breakpoint`: move the cursor. -/
def TreeSequenceBuilder.breakpoint (b : TreeSequenceBuilder)
    (breakpoint : Nat) : TreeSequenceBuilder :=
  { b with last_breakpoint := breakpoint }

/-- Removes the first triple whose child component is `c`, returning it
and the remaining list — the
`position(|(child, _, _)| *child == c)` / `remove(index)` pair of
`transplant`.  `none` when no open edge names `c`. -/
def removeFirstEdge (c : Nat) :
    List (Nat × Nat × Nat) → Option ((Nat × Nat × Nat) × List (Nat × Nat × Nat))
  | [] => none
  | e :: rest =>
    if e.1 = c then some (e, rest)
    else (removeFirstEdge c rest).map (fun p => (p.1, e :: p.2))

/-- Embeds one loop iteration of `TreeSequenceBuilder::transplant` for a
single child `c`: flush the first open edge for `c` (if any) into the
tree sequence — which can panic, hence `Option` — then open a fresh edge
when a new parent is given. -/
def transplantStep (b : TreeSequenceBuilder) (newParent : Option Nat)
    (c : Nat) : Option TreeSequenceBuilder :=
  let b1opt :=
    match removeFirstEdge c b.curr_edges with
    | none => some b
    | some (ce, rest) =>
      match addEdge b.ts ce.1 ce.2.1 ce.2.2 b.last_breakpoint with
      | none => none
      | some ts' =>
        some { ts := ts', last_breakpoint := b.last_breakpoint,
               curr_edges := rest }
  match b1opt with
  | none => none
  | some b1 =>
    match newParent with
    | none => some b1
    | some p =>
      some { b1 with curr_edges := b1.curr_edges ++ [(c, p, b1.last_breakpoint)] }

/-- The `for c in children` loop of `transplant`. -/
def transplantGo (newParent : Option Nat) :
    TreeSequenceBuilder → List Nat → Option TreeSequenceBuilder
  | b, [] => some b
  | b, c :: cs =>
    match transplantStep b newParent c with
    | none => none
    | some b' => transplantGo newParent b' cs

/-- Embeds `TreeSequenceBuilder::transplant`. -/
def TreeSequenceBuilder.transplant (b : TreeSequenceBuilder)
    (children : List Nat) (newParent : Option Nat) :
    Option TreeSequenceBuilder :=
  transplantGo newParent b children

/-- The `for (child, parent, left) in self.curr_edges` loop of `end`. -/
def endGo : TreeSequence → List (Nat × Nat × Nat) → Nat → Option TreeSequence
  | ts, [], _ => some ts
  | ts, ce :: rest, seqLength =>
    match addEdge ts ce.1 ce.2.1 ce.2.2 seqLength with
    | none => none
    | some ts' => endGo ts' rest seqLength

/-- Embeds `TreeSequenceBuilder::end` (named `endWith` because `end` is a
Lean keyword): close every remaining open edge at `seq_length` and return
the finished tree sequence. -/
def TreeSequenceBuilder.endWith (b : TreeSequenceBuilder)
    (seqLength : Nat) : Option TreeSequence :=
  endGo b.ts b.curr_edges seqLength

/-! ## Reachability predicates -/

/-- Tree sequences reachable from `TreeSequence::new` by successful
`add_edge` calls (none of them panicking). -/
inductive ReachableTS : TreeSequence → Prop
  | base : ReachableTS TreeSequence.new
  | step (ts ts' : TreeSequence) (c p l r : Nat) :
      ReachableTS ts → addEdge ts c p l r = some ts' → ReachableTS ts'

/-- Builder operations, for quantifying over call sequences. -/
inductive BuilderOp
  | insert (children : List Nat) (parent : Nat)
  | breakpoint (b : Nat)
  | transplant (children : List Nat) (newParent : Option Nat)

/-- Applies one builder operation; `none` is a panic inside
`transplant`'s flush. -/
def applyOp (b : TreeSequenceBuilder) :
    BuilderOp → Option TreeSequenceBuilder
  | .insert cs p => some (b.insert cs p)
  | .breakpoint x => some (b.breakpoint x)
  | .transplant cs np => b.transplant cs np

/-- Runs a list of builder operations from a given state. -/
def runOpsFrom (b : TreeSequenceBuilder) :
    List BuilderOp → Option TreeSequenceBuilder
  | [] => some b
  | op :: rest =>
    match applyOp b op with
    | none => none
    | some b' => runOpsFrom b' rest

/-- Runs a list of builder operations from a fresh builder. -/
def runOps (ops : List BuilderOp) : Option TreeSequenceBuilder :=
  runOpsFrom TreeSequenceBuilder.new ops

/-- Builder states reachable when every `insert` call respects the
discipline the spec's design notes prescribe: its children are pairwise
distinct and none of them already has an open edge.  `breakpoint` and
(successful) `transplant` calls are unrestricted. -/
inductive GoodReach : TreeSequenceBuilder → Prop
  | base : GoodReach TreeSequenceBuilder.new
  | insert (b : TreeSequenceBuilder) (cs : List Nat) (p : Nat) :
      GoodReach b → cs.Nodup →
      (∀ c ∈ cs, ∀ ce ∈ b.curr_edges, ce.1 ≠ c) →
      GoodReach (b.insert cs p)
  | breakpoint (b : TreeSequenceBuilder) (x : Nat) :
      GoodReach b → GoodReach (b.breakpoint x)
  | transplant (b b' : TreeSequenceBuilder) (cs : List Nat)
      (np : Option Nat) :
      GoodReach b → b.transplant cs np = some b' → GoodReach b'

/-! ## Spec-level genomic semantics -/

/-- Modelled from the spec (section 3, `Edge`): an edge records that
`child`'s parent is `parent` for every genomic position in
`[left, right)`, so the local tree at position `x` assigns
`parent[e.child] = Some(e.parent)` for exactly the edges whose interval
contains `x`.  The code never computes this pointwise topology; it is
needed to express what interval a yielded tree actually covers. -/
def topologyAt (ts : TreeSequence) (x : Nat) : List (Option Nat) :=
  buildParent ts.num_nodes
    (ts.edges.filter (fun e => e.left ≤ x && x < e.right))

/-! ## Concrete programs named by the claims -/

/-- The canonical builder program of the spec's end-to-end scenario. -/
def exampleProgram : Option TreeSequence := do
  let b := TreeSequenceBuilder.new
  let b := b.insert [0, 1] 4
  let b := b.insert [2, 3] 5
  let b := b.insert [4, 5] 6
  let b := b.breakpoint 1
  let b ← b.transplant [0] (some 6)
  let b ← b.transplant [1] (some 5)
  let b := b.breakpoint 2
  let b ← b.transplant [0, 5] none
  b.endWith 3

/-- A well-disciplined builder program (distinct children, one open edge
per child, increasing breakpoints) whose edge intervals are not aligned:
child 0 keeps parent 1 over all of `[0, 10)` while child 2 has parent 1
only over `[5, 7)`. -/
def bugProgram : Option TreeSequence := do
  let b := TreeSequenceBuilder.new
  let b := b.insert [0] 1
  let b := b.breakpoint 5
  let b := b.insert [2] 1
  let b := b.breakpoint 7
  let b ← b.transplant [2] none
  b.endWith 10

/-- The tree sequence `bugProgram` builds: edges
`(parent 1, child 0, [0, 10))` and `(parent 1, child 2, [5, 7))`,
sequence length `10`. -/
def tsBug : TreeSequence := ⟨3, [⟨1, 0, 0, 10⟩, ⟨1, 2, 5, 7⟩]⟩

/-- No genomic position of `[0, 10)` has `[None, None, Some 1]` — the
parent array of the second yielded tree of `tsBug` — as its local
topology. -/
def bugTreeUncovered : Bool :=
  (List.range 10).all
    (fun x => topologyAt tsBug x != [none, none, some 1])

/-- A one-edge tree sequence used as a concrete witness input:
the result of `add_edge(1, 0, 0, 1)` on a fresh tree sequence. -/
def tsOne : TreeSequence := ⟨2, [⟨0, 1, 0, 1⟩]⟩

/-- The duplicated-insert builder state: `insert([0],1); insert([0],1)`
leaves two simultaneously open edges for child `0`. -/
def bCex : TreeSequenceBuilder :=
  ⟨TreeSequence.new, 0, [(0, 1, 0), (0, 1, 0)]⟩

/-- A concrete disciplined builder state: `insert([0,1],4)` from fresh. -/
def bGood : TreeSequenceBuilder :=
  TreeSequenceBuilder.new.insert [0, 1] 4

/-- A concrete strictly-increasing tree: 0 → 1 → 2 → root. -/
def chainTree : Tree := ⟨[some 1, some 2, none]⟩

/-! ## Order lemmas for the edge key -/

theorem edgeKey_ne_iff (a b : Edge) :
    edgeKey a ≠ edgeKey b ↔
      ¬(a.left = b.left ∧ a.parent = b.parent ∧ a.child = b.child) := by
  simp [edgeKey, Prod.ext_iff]

theorem edgeKeyLt_trans {a b c : Edge}
    (h1 : edgeKeyLt a b) (h2 : edgeKeyLt b c) : edgeKeyLt a c := by
  dsimp [edgeKeyLt] at *
  omega

theorem edgeKeyLt_key_ne {a b : Edge} (h : edgeKeyLt a b) :
    edgeKey a ≠ edgeKey b := by
  rw [edgeKey_ne_iff]
  dsimp [edgeKeyLt] at h
  omega

theorem edgeKeyLt_of_not_lt {a b : Edge} (h : ¬ edgeKeyLt a b)
    (hne : edgeKey a ≠ edgeKey b) : edgeKeyLt b a := by
  rw [edgeKey_ne_iff] at hne
  dsimp [edgeKeyLt] at *
  omega

/-! ## Lemmas about `sortedInsertEdge` and `addEdge` -/

theorem sortedInsertEdge_perm (e : Edge) (l : List Edge) :
    (sortedInsertEdge e l).Perm (e :: l) := by
  induction l with
  | nil => simp [sortedInsertEdge]
  | cons b t ih =>
    by_cases h : edgeKeyLt b e
    · simp only [sortedInsertEdge, if_pos h]
      exact (ih.cons b).trans (List.Perm.swap e b t)
    · simp only [sortedInsertEdge, if_neg h]
      exact List.Perm.refl _

theorem sortedInsertEdge_pairwise (e : Edge) (l : List Edge)
    (hs : List.Pairwise edgeKeyLt l)
    (hne : ∀ a ∈ l, edgeKey a ≠ edgeKey e) :
    List.Pairwise edgeKeyLt (sortedInsertEdge e l) := by
  induction l with
  | nil => simp [sortedInsertEdge]
  | cons b t ih =>
    rw [List.pairwise_cons] at hs
    by_cases h : edgeKeyLt b e
    · simp only [sortedInsertEdge, if_pos h]
      refine List.Pairwise.cons ?_ (ih hs.2 (fun a ha => hne a (List.mem_cons_of_mem b ha)))
      intro x hx
      rcases List.mem_cons.mp ((sortedInsertEdge_perm e t).mem_iff.mp hx) with hx | hx
      · exact hx ▸ h
      · exact hs.1 x hx
    · simp only [sortedInsertEdge, if_neg h]
      have heb : edgeKeyLt e b :=
        edgeKeyLt_of_not_lt h (hne b (List.mem_cons_self b t))
      refine List.Pairwise.cons ?_ (List.pairwise_cons.mpr hs)
      intro x hx
      rcases List.mem_cons.mp hx with hx | hx
      · exact hx ▸ heb
      · exact edgeKeyLt_trans heb (hs.1 x hx)

theorem addEdge_none_iff (ts : TreeSequence) (c p l r : Nat) :
    addEdge ts c p l r = none ↔ ∃ e ∈ ts.edges, edgeKey e = (l, p, c) := by
  have hiff : (ts.edges.any fun e2 => edgeKey e2 == edgeKey ⟨p, c, l, r⟩) = true ↔
      ∃ e ∈ ts.edges, edgeKey e = (l, p, c) := by
    rw [List.any_eq_true]
    constructor
    · rintro ⟨e, he, hk⟩
      exact ⟨e, he, beq_iff_eq.mp hk⟩
    · rintro ⟨e, he, hk⟩
      exact ⟨e, he, beq_iff_eq.mpr hk⟩
  unfold addEdge
  split
  · simpa using hiff.mp (by assumption)
  · simp only [reduceCtorEq, false_iff]
    intro hex
    exact (by assumption : ¬_) (hiff.mpr hex)

theorem addEdge_some_edges (ts ts' : TreeSequence) (c p l r : Nat)
    (h : addEdge ts c p l r = some ts') :
    ts'.edges = sortedInsertEdge ⟨p, c, l, r⟩ ts.edges ∧
      ∀ a ∈ ts.edges, edgeKey a ≠ edgeKey (⟨p, c, l, r⟩ : Edge) := by
  unfold addEdge at h
  split at h
  · exact absurd h (by simp)
  · refine ⟨by injection h with h'; rw [← h'], ?_⟩
    intro a ha hk
    have hany : (ts.edges.any fun e2 => edgeKey e2 == edgeKey ⟨p, c, l, r⟩) = true :=
      List.any_eq_true.mpr ⟨a, ha, beq_iff_eq.mpr hk⟩
    exact (by assumption : ¬_) hany

/-! ## Claim C4 -/

/-- C4: `add_edge` fails fatally (the `panic`, modelled as `none`) exactly
when an already-stored edge agrees with the new edge on the
`(left, parent, child)` key; otherwise it succeeds and the new edge is
placed at its sort position: the resulting edge list is the input list
with the new edge inserted, still sorted. -/
theorem C4_add_edge (ts : TreeSequence) (child par l r : Nat)
    (hs : List.Pairwise edgeKeyLt ts.edges) :
    (addEdge ts child par l r = none ↔
      ∃ e ∈ ts.edges, e.left = l ∧ e.parent = par ∧ e.child = child) ∧
    ∀ ts', addEdge ts child par l r = some ts' →
      ts'.edges = sortedInsertEdge ⟨par, child, l, r⟩ ts.edges ∧
      List.Pairwise edgeKeyLt ts'.edges ∧
      ts'.edges.Perm ((⟨par, child, l, r⟩ : Edge) :: ts.edges) := by
  constructor
  · rw [addEdge_none_iff]
    constructor
    · rintro ⟨e, he, hk⟩
      refine ⟨e, he, ?_⟩
      simpa [edgeKey, Prod.ext_iff] using hk
    · rintro ⟨e, he, h1, h2, h3⟩
      exact ⟨e, he, by simp [edgeKey, Prod.ext_iff, h1, h2, h3]⟩
  · intro ts' h
    obtain ⟨hedges, hfresh⟩ := addEdge_some_edges ts ts' child par l r h
    refine ⟨hedges, ?_, ?_⟩
    · rw [hedges]
      exact sortedInsertEdge_pairwise _ _ hs hfresh
    · rw [hedges]
      exact sortedInsertEdge_perm _ _

/-- Witness for C4 at the concrete one-edge tree sequence `tsOne`. -/
theorem C4_witness :
    List.Pairwise edgeKeyLt tsOne.edges ∧
    ((addEdge tsOne 1 0 0 5 = none ↔
        ∃ e ∈ tsOne.edges, e.left = 0 ∧ e.parent = 0 ∧ e.child = 1) ∧
      ∀ ts', addEdge tsOne 1 0 0 5 = some ts' →
        ts'.edges = sortedInsertEdge ⟨0, 1, 0, 5⟩ tsOne.edges ∧
        List.Pairwise edgeKeyLt ts'.edges ∧
        ts'.edges.Perm ((⟨0, 1, 0, 5⟩ : Edge) :: tsOne.edges)) :=
  ⟨by decide, C4_add_edge tsOne 1 0 0 5 (by decide)⟩

/-! ## Claim C7 -/

/-- C7: every tree sequence reachable from the empty one by successful
`add_edge` calls has its stored edges in strictly ascending
`(left, parent, child)` order, with no two edges equal on that key; the
induction over `ReachableTS` is exactly preservation by every
`add_edge` call. -/
theorem C7_reachable_sorted (ts : TreeSequence) (h : ReachableTS ts) :
    List.Pairwise edgeKeyLt ts.edges ∧
      List.Pairwise (fun a b => edgeKey a ≠ edgeKey b) ts.edges := by
  induction h with
  | base => simp [TreeSequence.new]
  | step ts ts' c p l r hr hadd ih =>
    obtain ⟨hedges, hfresh⟩ := addEdge_some_edges ts ts' c p l r hadd
    have hlt : List.Pairwise edgeKeyLt ts'.edges := by
      rw [hedges]
      exact sortedInsertEdge_pairwise _ _ ih.1 hfresh
    exact ⟨hlt, hlt.imp (fun hab => edgeKeyLt_key_ne hab)⟩

/-- Witness for C7: `tsOne` is reachable by one `add_edge` call and its
edge list is strictly sorted and key-duplicate-free. -/
theorem C7_witness :
    ReachableTS tsOne ∧
      (List.Pairwise edgeKeyLt tsOne.edges ∧
        List.Pairwise (fun a b => edgeKey a ≠ edgeKey b) tsOne.edges) :=
  have hr : ReachableTS tsOne :=
    ReachableTS.step TreeSequence.new tsOne 1 0 0 1 ReachableTS.base (by decide)
  ⟨hr, C7_reachable_sorted tsOne hr⟩

/-! ## Claim C10 -/

/-- C10: duplicate detection uses only the `(left, parent, child)` order:
inserting an edge that agrees with a stored edge on those three fields
aborts for every choice of `right`, even one that makes the new edge
different from every stored edge under full four-field `Edge` equality. -/
theorem C10_duplicate_ignores_right (ts : TreeSequence) (e : Edge) (r' : Nat)
    (_hs : List.Pairwise edgeKeyLt ts.edges) (he : e ∈ ts.edges) :
    addEdge ts e.child e.parent e.left r' = none ∧
      (r' ≠ e.right → (⟨e.parent, e.child, e.left, r'⟩ : Edge) ≠ e) := by
  constructor
  · exact (addEdge_none_iff ts e.child e.parent e.left r').mpr ⟨e, he, rfl⟩
  · intro hr hEq
    have := congrArg Edge.right hEq
    simp only at this
    exact hr this

/-- Witness for C10: in `tsOne` the stored edge is `(0, 1, [0, 1))`;
re-adding `(0, 1, left 0)` with `right = 5` aborts although the probe
differs from the stored edge as a full `Edge` value. -/
theorem C10_witness :
    List.Pairwise edgeKeyLt tsOne.edges ∧
      (⟨0, 1, 0, 1⟩ : Edge) ∈ tsOne.edges ∧
      (addEdge tsOne 1 0 0 5 = none ∧
        ((5 : Nat) ≠ 1 → (⟨0, 1, 0, 5⟩ : Edge) ≠ ⟨0, 1, 0, 1⟩)) :=
  ⟨by decide, by decide,
    C10_duplicate_ignores_right tsOne ⟨0, 1, 0, 1⟩ 5 (by decide) (by decide)⟩

/-! ## Lemmas about the builder's open-edge list -/

theorem removeFirstEdge_eq_none_iff (c : Nat) (l : List (Nat × Nat × Nat)) :
    removeFirstEdge c l = none ↔ ∀ ce ∈ l, ce.1 ≠ c := by
  induction l with
  | nil => simp [removeFirstEdge]
  | cons e rest ih =>
    by_cases h : e.1 = c
    · simp [removeFirstEdge, h]
    · simp [removeFirstEdge, h, ih, List.forall_mem_cons, Option.map_eq_none']

theorem removeFirstEdge_sublist {c : Nat} {l : List (Nat × Nat × Nat)}
    {pr : (Nat × Nat × Nat) × List (Nat × Nat × Nat)}
    (h : removeFirstEdge c l = some pr) : pr.2.Sublist l := by
  induction l generalizing pr with
  | nil => simp [removeFirstEdge] at h
  | cons e rest ih =>
    by_cases he : e.1 = c
    · simp only [removeFirstEdge, if_pos he, Option.some.injEq] at h
      rw [← h]
      exact List.sublist_cons_self e rest
    · simp only [removeFirstEdge, if_neg he, Option.map_eq_some'] at h
      obtain ⟨a, ha, hpr⟩ := h
      rw [← hpr]
      exact (ih ha).cons₂ e

theorem removeFirstEdge_not_mem {c : Nat} {l : List (Nat × Nat × Nat)}
    {pr : (Nat × Nat × Nat) × List (Nat × Nat × Nat)}
    (hn : (l.map Prod.fst).Nodup) (h : removeFirstEdge c l = some pr) :
    c ∉ pr.2.map Prod.fst := by
  induction l generalizing pr with
  | nil => simp [removeFirstEdge] at h
  | cons e rest ih =>
    simp only [List.map_cons, List.nodup_cons] at hn
    by_cases he : e.1 = c
    · simp only [removeFirstEdge, if_pos he, Option.some.injEq] at h
      rw [← h]
      exact he ▸ hn.1
    · simp only [removeFirstEdge, if_neg he, Option.map_eq_some'] at h
      obtain ⟨a, ha, hpr⟩ := h
      rw [← hpr]
      simp only [List.map_cons, List.mem_cons]
      rintro (hc | hc)
      · exact he hc.symm
      · exact ih hn.2 ha hc

theorem transplantStep_nodup {b b' : TreeSequenceBuilder} {np : Option Nat}
    {c : Nat} (hn : (b.curr_edges.map Prod.fst).Nodup)
    (h : transplantStep b np c = some b') :
    (b'.curr_edges.map Prod.fst).Nodup := by
  cases hrem : removeFirstEdge c b.curr_edges with
  | none =>
    have hfresh : c ∉ b.curr_edges.map Prod.fst := by
      have := (removeFirstEdge_eq_none_iff c b.curr_edges).mp hrem
      simp only [List.mem_map]
      rintro ⟨ce, hce, hc⟩
      exact this ce hce hc
    cases np with
    | none =>
      simp only [transplantStep, hrem] at h
      rw [← Option.some.injEq _ _ |>.mp h]
      exact hn
    | some p =>
      simp only [transplantStep, hrem] at h
      rw [← Option.some.injEq _ _ |>.mp h]
      simp only [List.map_append, List.map_cons, List.map_nil]
      rw [List.nodup_append]
      refine ⟨hn, List.nodup_singleton c, ?_⟩
      intro a ha hb
      rw [List.mem_singleton] at hb
      exact hfresh (hb ▸ ha)
  | some pr =>
    obtain ⟨ce, rest⟩ := pr
    have hrest : (rest.map Prod.fst).Nodup :=
      hn.sublist ((removeFirstEdge_sublist hrem).map Prod.fst)
    have hcrest : c ∉ rest.map Prod.fst := removeFirstEdge_not_mem hn hrem
    cases hadd : addEdge b.ts ce.1 ce.2.1 ce.2.2 b.last_breakpoint with
    | none => simp [transplantStep, hrem, hadd] at h
    | some ts' =>
      cases np with
      | none =>
        simp only [transplantStep, hrem, hadd] at h
        rw [← Option.some.injEq _ _ |>.mp h]
        exact hrest
      | some p =>
        simp only [transplantStep, hrem, hadd] at h
        rw [← Option.some.injEq _ _ |>.mp h]
        simp only [List.map_append, List.map_cons, List.map_nil]
        rw [List.nodup_append]
        refine ⟨hrest, List.nodup_singleton c, ?_⟩
        intro a ha hb
        rw [List.mem_singleton] at hb
        exact hcrest (hb ▸ ha)

theorem transplantGo_nodup {np : Option Nat} (cs : List Nat) :
    ∀ (b b' : TreeSequenceBuilder),
      (b.curr_edges.map Prod.fst).Nodup →
      transplantGo np b cs = some b' →
      (b'.curr_edges.map Prod.fst).Nodup := by
  induction cs with
  | nil =>
    intro b b' hn h
    simp only [transplantGo, Option.some.injEq] at h
    exact h ▸ hn
  | cons c cs ih =>
    intro b b' hn h
    cases hst : transplantStep b np c with
    | none => simp [transplantGo, hst] at h
    | some b1 =>
      simp only [transplantGo, hst] at h
      exact ih b1 b' (transplantStep_nodup hn hst) h

/-! ## Claim C5 -/

/-- C5: transplanting a child `c` with no currently open edge never
fails: the close half emits nothing into the underlying tree sequence,
and the builder either gains exactly the fresh open edge
`(c, p, left = cursor)` (for `Some(p)`) or is left unchanged (for
`None`). -/
theorem C5_transplant_no_open (b : TreeSequenceBuilder) (c : Nat)
    (hc : ∀ ce ∈ b.curr_edges, ce.1 ≠ c) :
    (∀ p, b.transplant [c] (some p) =
        some { b with
          curr_edges := b.curr_edges ++ [(c, p, b.last_breakpoint)] }) ∧
      b.transplant [c] none = some b := by
  have hrem : removeFirstEdge c b.curr_edges = none :=
    (removeFirstEdge_eq_none_iff c b.curr_edges).mpr hc
  constructor
  · intro p
    simp [TreeSequenceBuilder.transplant, transplantGo, transplantStep, hrem]
  · simp [TreeSequenceBuilder.transplant, transplantGo, transplantStep, hrem]

/-- Witness for C5: in the builder state reached by `insert([0,1],4)`
no open edge names child `7`, and transplanting `7` behaves as stated. -/
theorem C5_witness :
    (∀ ce ∈ bGood.curr_edges, ce.1 ≠ 7) ∧
      ((∀ p, bGood.transplant [7] (some p) =
          some { bGood with
            curr_edges := bGood.curr_edges ++ [(7, p, bGood.last_breakpoint)] }) ∧
        bGood.transplant [7] none = some bGood) :=
  ⟨by decide, C5_transplant_no_open bGood 7 (by decide)⟩

/-! ## Claim C6 -/

/-- C6 fails as stated: the builder state reached from a fresh builder by
the two calls `insert([0], 1); insert([0], 1)` holds two simultaneously
open edges for child `0` (its open-edge child list counts `0` twice), so
the open-edge collection of a reachable state need not be a mapping with
one open edge per child. -/
theorem C6_counterexample :
    runOps [BuilderOp.insert [0] 1, BuilderOp.insert [0] 1] = some bCex ∧
      (bCex.curr_edges.map Prod.fst).count 0 = 2 := by
  decide

/-- C6 amended: in every builder state reachable by insert, breakpoint
and transplant calls in which each `insert` names pairwise-distinct
children none of which already has an open edge (the discipline the
spec's design notes prescribe for `insert`), the open-edge list holds at
most one open edge per child. -/
theorem C6_unique_open_edges (b : TreeSequenceBuilder) (h : GoodReach b) :
    (b.curr_edges.map Prod.fst).Nodup := by
  induction h with
  | base => simp [TreeSequenceBuilder.new]
  | insert b cs p hg hnodup hfresh ih =>
    simp only [TreeSequenceBuilder.insert, List.map_append, List.map_map]
    have hmap : List.map (Prod.fst ∘ fun c => (c, p, b.last_breakpoint)) cs = cs := by
      rw [show (Prod.fst ∘ fun c => (c, p, b.last_breakpoint)) = id from rfl,
        List.map_id]
    rw [hmap, List.nodup_append]
    refine ⟨ih, hnodup, ?_⟩
    intro a ha hb
    obtain ⟨ce, hce, hc⟩ := List.mem_map.mp ha
    exact hfresh a hb ce hce hc
  | breakpoint b x hg ih =>
    exact ih
  | transplant b b' cs np hg htr ih =>
    exact transplantGo_nodup cs b b' ih htr

/-- Witness for the amended C6: the disciplined state `insert([0,1],4)`
from fresh is `GoodReach` and has duplicate-free open-edge children. -/
theorem C6_witness :
    GoodReach bGood ∧ (bGood.curr_edges.map Prod.fst).Nodup :=
  have hg : GoodReach bGood :=
    GoodReach.insert TreeSequenceBuilder.new [0, 1] 4 GoodReach.base
      (by decide) (by decide)
  ⟨hg, C6_unique_open_edges bGood hg⟩

/-! ## Claim C9 -/

/-- C9: `Tree::parent(u)` is a total lookup that returns `None` — the
valid "root" answer, not a fault — whenever `u` is beyond the parent
array's bounds or the array records no parent at `u`. -/
theorem C9_parent_total (t : Tree) (u : Nat)
    (h : t.parent.length ≤ u ∨ t.parent.get? u = some none) :
    t.parentOf u = none := by
  unfold Tree.parentOf
  rcases h with h | h
  · rw [List.get?_eq_none.mpr h]
  · rw [h]

/-- Witness for C9: looking up node `5` in the three-entry tree
`chainTree` is out of bounds and yields `None`. -/
theorem C9_witness :
    (chainTree.parent.length ≤ 5 ∨ chainTree.parent.get? 5 = some none) ∧
      chainTree.parentOf 5 = none :=
  ⟨by decide, C9_parent_total chainTree 5 (by decide)⟩

/-! ## Claim C8 -/

theorem mrcaLoop_symm (uA vA : List Nat) :
    ∀ (steps i common : Nat),
      mrcaLoop uA vA common steps i = mrcaLoop vA uA common steps i := by
  intro steps
  induction steps with
  | zero => intro i common; rfl
  | succ s ih =>
    intro i common
    show (if uA.getD (uA.length - i - 1) 0 ≠ vA.getD (vA.length - i - 1) 0
          then common
          else mrcaLoop uA vA (uA.getD (uA.length - i - 1) 0) s (i + 1)) =
        (if vA.getD (vA.length - i - 1) 0 ≠ uA.getD (uA.length - i - 1) 0
          then common
          else mrcaLoop vA uA (vA.getD (vA.length - i - 1) 0) s (i + 1))
    by_cases h : uA.getD (uA.length - i - 1) 0 = vA.getD (vA.length - i - 1) 0
    · rw [if_neg (fun hh => hh h), if_neg (fun hh => hh h.symm), h]
      exact ih (i + 1) (vA.getD (vA.length - i - 1) 0)
    · rw [if_pos h, if_pos (fun hh => h hh.symm)]

/-- C8: `mrca` is symmetric — for every `Tree`, all node ids and every
fuel budget the embedded `mrca` gives the same answer in both argument
orders; in particular whenever the Rust `mrca(u, v)` terminates,
`mrca(v, u)` terminates with the same result. -/
theorem C8_mrca_symm (t : Tree) (u v : Nat) (fuel : Nat) :
    t.mrca u v fuel = t.mrca v u fuel := by
  unfold Tree.mrca
  cases hu : t.ancestorChain u fuel with
  | none => cases hv : t.ancestorChain v fuel <;> rfl
  | some uAnc =>
    cases hv : t.ancestorChain v fuel with
    | none => rfl
    | some vAnc =>
      show (if uAnc.getLastD 0 ≠ vAnc.getLastD 0 then some none
            else some (some (mrcaLoop uAnc vAnc (uAnc.getLastD 0)
              (Nat.min uAnc.length vAnc.length) 0))) =
          (if vAnc.getLastD 0 ≠ uAnc.getLastD 0 then some none
            else some (some (mrcaLoop vAnc uAnc (vAnc.getLastD 0)
              (Nat.min vAnc.length uAnc.length) 0)))
      by_cases h : uAnc.getLastD 0 = vAnc.getLastD 0
      · have hmin : Nat.min uAnc.length vAnc.length =
            Nat.min vAnc.length uAnc.length := Nat.min_comm _ _
        rw [if_neg (fun hh => hh h), if_neg (fun hh => hh h.symm), h, hmin,
          mrcaLoop_symm]
      · rw [if_pos h, if_pos (fun hh => h hh.symm)]

/-! ## Claim C3 -/

theorem ancestorChain_some_of_strict (t : Tree) (hs : StrictParents t) :
    ∀ (fuel x : Nat), t.parent.length - x < fuel →
      ∃ c, t.ancestorChain x fuel = some c := by
  intro fuel
  induction fuel with
  | zero => intro x hx; omega
  | succ f ih =>
    intro x _hx
    cases hp : t.parentOf x with
    | none => exact ⟨[x], by simp [Tree.ancestorChain, hp]⟩
    | some p =>
      have hxp : x < p := hs x p hp
      have hxlen : x < t.parent.length := by
        by_contra hge
        have hnone : t.parent.get? x = none := List.get?_eq_none.mpr (by omega)
        unfold Tree.parentOf at hp
        rw [hnone] at hp
        exact Option.noConfusion hp
      obtain ⟨c, hc⟩ := ih p (by omega)
      exact ⟨x :: c, by simp [Tree.ancestorChain, hp, hc]⟩

/-- C3 amended: `mrca(u, v)` terminates (fuel `len + 1` suffices) on
every `Tree` whose recorded parent ids strictly exceed their children —
which covers every tree in the repository's tests — for all `u`, `v`.
The remaining builder, storage and iteration operations are embedded as
total functions and are deterministic by construction; the duplicate-edge
panic of `add_edge` stays the sole fatal case.  Totality on arbitrary
`Tree` values fails, see the counterexample. -/
theorem C3_mrca_total_of_strict (t : Tree) (u v : Nat)
    (hs : StrictParents t) :
    ∃ r, t.mrca u v (t.parent.length + 1) = some r := by
  obtain ⟨cu, hcu⟩ :=
    ancestorChain_some_of_strict t hs (t.parent.length + 1) u (by omega)
  obtain ⟨cv, hcv⟩ :=
    ancestorChain_some_of_strict t hs (t.parent.length + 1) v (by omega)
  by_cases h : cu.getLastD 0 = cv.getLastD 0
  · refine ⟨some (mrcaLoop cu cv (cu.getLastD 0)
      (Nat.min cu.length cv.length) 0), ?_⟩
    unfold Tree.mrca
    rw [hcu, hcv]
    show (if cu.getLastD 0 ≠ cv.getLastD 0 then some none
          else some (some (mrcaLoop cu cv (cu.getLastD 0)
            (Nat.min cu.length cv.length) 0))) =
        some (some (mrcaLoop cu cv (cu.getLastD 0)
          (Nat.min cu.length cv.length) 0))
    rw [if_neg (fun hh => hh h)]
  · refine ⟨none, ?_⟩
    unfold Tree.mrca
    rw [hcu, hcv]
    show (if cu.getLastD 0 ≠ cv.getLastD 0 then some none
          else some (some (mrcaLoop cu cv (cu.getLastD 0)
            (Nat.min cu.length cv.length) 0))) = some none
    rw [if_pos h]

/-- Witness for the amended C3: the strictly-increasing tree
`chainTree` satisfies the hypothesis and `mrca(0, 2)` terminates. -/
theorem C3_witness :
    StrictParents chainTree ∧
      ∃ r, chainTree.mrca 0 2 (chainTree.parent.length + 1) = some r :=
  have hs : StrictParents chainTree := by
    intro u p h
    rcases u with _ | _ | _ | u
    · simp [chainTree, Tree.parentOf] at h
      omega
    · simp [chainTree, Tree.parentOf] at h
      omega
    · simp [chainTree, Tree.parentOf] at h
    · simp [chainTree, Tree.parentOf] at h
  ⟨hs, C3_mrca_total_of_strict chainTree 0 2 hs⟩

theorem cycChain_none (fuel : Nat) :
    Tree.ancestorChain cycTree 0 fuel = none ∧
      Tree.ancestorChain cycTree 1 fuel = none := by
  induction fuel with
  | zero => exact ⟨rfl, rfl⟩
  | succ f ih =>
    constructor
    · show (Tree.ancestorChain cycTree 1 f).map (fun c => 0 :: c) = none
      rw [ih.2]
      rfl
    · show (Tree.ancestorChain cycTree 0 f).map (fun c => 1 :: c) = none
      rw [ih.1]
      rfl

/-- C3 counterexample: on the cyclic `Tree::new(vec![Some(1), Some(0)])`
— a legal `Tree` value — the Rust `mrca(0, 0)` never terminates: the
embedding returns "still running" for every fuel budget, refuting "mrca
terminates on every Tree value". -/
theorem C3_counterexample : mrcaDiverges cycTree 0 0 := by
  intro fuel
  unfold Tree.mrca
  rw [(cycChain_none fuel).1]


/-! ## Termination of the sweep iterator -/

theorem minRight_eq_none_iff (l : List Edge) : minRight l = none ↔ l = [] := by
  cases l with
  | nil => simp [minRight]
  | cons e rest =>
    simp only [minRight]
    cases minRight rest <;> simp

theorem minRight_mem : ∀ (l : List Edge) (m : Nat), minRight l = some m →
    ∃ e ∈ l, e.right = m := by
  intro l
  induction l with
  | nil => intro m h; simp [minRight] at h
  | cons e rest ih =>
    intro m h
    cases hm : minRight rest with
    | none =>
      simp only [minRight, hm, Option.some.injEq] at h
      exact ⟨e, List.mem_cons_self e rest, h⟩
    | some m' =>
      simp only [minRight, hm, Option.some.injEq] at h
      rcases Nat.le_total e.right m' with hle | hle
      · have hmin : Nat.min e.right m' = e.right := Nat.min_eq_left hle
        exact ⟨e, List.mem_cons_self e rest, by omega⟩
      · have hmin : Nat.min e.right m' = m' := Nat.min_eq_right hle
        obtain ⟨e', he', hr⟩ := ih m' hm
        exact ⟨e', List.mem_cons_of_mem e he', by omega⟩

theorem length_filter_lt_of_mem {p : Edge → Bool} :
    ∀ {l : List Edge} (e : Edge), e ∈ l → p e = false →
      (l.filter p).length < l.length := by
  intro l
  induction l with
  | nil => intro e he; simp at he
  | cons b t ih =>
    intro e he hpe
    rcases List.mem_cons.mp he with he | he
    · subst he
      simp only [List.filter_cons, hpe]
      exact Nat.lt_succ_of_le (List.length_filter_le p t)
    · rcases hb : p b with _ | _
      · simp only [List.filter_cons, hb]
        exact Nat.lt_succ_of_le (List.length_filter_le p t)
      · simp only [List.filter_cons, hb, List.length_cons]
        exact Nat.succ_lt_succ (ih e he hpe)

theorem pullAux_measure (nr : Nat) : ∀ (u c : List Edge),
    2 * (pullAux nr c u).2.length + (pullAux nr c u).1.length ≤
      2 * u.length + c.length := by
  intro u
  induction u with
  | nil => intro c; simp [pullAux]
  | cons e rest ih =>
    intro c
    by_cases h : nr < e.left
    · simp [pullAux, h]
    · have := ih (c ++ [e])
      simp only [pullAux, if_neg h, List.length_append, List.length_singleton,
        List.length_cons, List.length_nil] at this ⊢
      omega

/-- Every yielded iterator step strictly decreases
`2 * |upcoming| + |current|`: an eviction shrinks the active set and a
pull moves edges from the upcoming to the active side. -/
theorem stepTree_measure {s : TreeSequenceIterator} {t : Tree}
    {s' : TreeSequenceIterator} (h : stepTree s = some (t, s')) :
    iterMeasure s' < iterMeasure s := by
  obtain ⟨n, cur, up⟩ := s
  cases hm : minRight cur with
  | none =>
    have hcur : cur = [] := (minRight_eq_none_iff cur).mp hm
    subst hcur
    cases up with
    | nil => simp [stepTree, minRight] at h
    | cons e rest =>
      have hpull := pullAux_measure e.left rest [e]
      simp only [stepTree, minRight, List.isEmpty_iff] at h
      rw [show pullAux e.left [] (e :: rest) = pullAux e.left [e] rest by
        simp [pullAux]] at h
      split at h
      · exact absurd h (by simp)
      · have hinj := Option.some.injEq _ _ |>.mp h
        have hs' : s' = ⟨n, (pullAux e.left [e] rest).1,
            (pullAux e.left [e] rest).2⟩ := by
          rw [← (Prod.mk.injEq _ _ _ _ |>.mp hinj).2]
        rw [hs']
        simp only [iterMeasure, List.length_cons, List.length_nil] at hpull ⊢
        omega
  | some m =>
    obtain ⟨eo, heo, hro⟩ := minRight_mem cur m hm
    have hfo : (fun e => decide (m < e.right)) eo = false := by
      simp [hro]
    have hflt : (cur.filter (fun e => decide (m < e.right))).length <
        cur.length := length_filter_lt_of_mem eo heo hfo
    cases up with
    | nil =>
      simp only [stepTree, hm, List.isEmpty_iff] at h
      split at h
      · exact absurd h (by simp)
      · have hinj := Option.some.injEq _ _ |>.mp h
        have hs' : s' = ⟨n, cur.filter (fun e => decide (m < e.right)), []⟩ := by
          rw [← (Prod.mk.injEq _ _ _ _ |>.mp hinj).2]
        rw [hs']
        simp only [iterMeasure, List.length_nil]
        omega
    | cons e rest =>
      have hpull := pullAux_measure e.left rest
        (cur.filter (fun e => decide (m < e.right)) ++ [e])
      simp only [stepTree, hm, List.isEmpty_iff] at h
      rw [show pullAux e.left (cur.filter (fun e => decide (m < e.right)))
            (e :: rest) =
          pullAux e.left (cur.filter (fun e => decide (m < e.right)) ++ [e])
            rest by simp [pullAux]] at h
      split at h
      · exact absurd h (by simp)
      · have hinj := Option.some.injEq _ _ |>.mp h
        have hs' : s' = ⟨n,
            (pullAux e.left
              (cur.filter (fun e => decide (m < e.right)) ++ [e]) rest).1,
            (pullAux e.left
              (cur.filter (fun e => decide (m < e.right)) ++ [e]) rest).2⟩ := by
          rw [← (Prod.mk.injEq _ _ _ _ |>.mp hinj).2]
        rw [hs']
        simp only [iterMeasure, List.length_append, List.length_singleton,
          List.length_cons, List.length_nil] at hpull ⊢
        omega

/-- Any fuel above the iterator measure yields the same (complete) run:
together with `stepTree_measure` this shows the fuel in `treesList`
drives the iterator all the way to exhaustion. -/
theorem treesAux_stable : ∀ (f g : Nat) (s : TreeSequenceIterator),
    iterMeasure s < f → iterMeasure s < g → treesAux f s = treesAux g s := by
  intro f
  induction f with
  | zero => intro g s hf; omega
  | succ f ih =>
    intro g s hf hg
    cases g with
    | zero => omega
    | succ g =>
      cases hst : stepTree s with
      | none =>
        simp only [treesAux]
        rw [hst]
      | some pr =>
        obtain ⟨t, s'⟩ := pr
        have hms := stepTree_measure hst
        simp only [treesAux]
        rw [hst]
        show t :: treesAux f s' = t :: treesAux g s'
        rw [ih g s' (by omega) (by omega)]

/-! ## Claim C1 -/

/-- C1: the canonical builder program succeeds and iterating the
resulting tree sequence yields exactly the three expected trees, in
order (node ids 0..6), after which the iterator is exhausted. -/
theorem C1_end_to_end :
    exampleProgram.map treesList =
      some [⟨[some 4, some 4, some 5, some 5, some 6, some 6, none]⟩,
            ⟨[some 6, some 5, some 5, some 5, some 6, some 6, none]⟩,
            ⟨[none, some 5, some 5, some 5, some 6, none, none]⟩] := by
  decide

/-! ## Claim C2 -/

/-- C2 fails on the code: the well-formed builder program `bugProgram`
(edges `(1, 0, [0, 10))` and `(1, 2, [5, 7))`, sequence length 10)
iterates into two trees, and its second tree `[None, None, Some 1]`
matches the genomic topology of `tsBug` at no position of `[0, 10)`:
the sweep evicted the edge `(1, 0, [0, 10))` at position 5, so positions
`5` and `6` (true topology `[Some 1, None, Some 1]`) are covered by no
yielded tree and the yielded intervals cannot partition `[0, 10)`. -/
theorem C2_partition_violated :
    bugProgram = some tsBug ∧
      treesList tsBug =
        [⟨[some 1, none, none]⟩, ⟨[none, none, some 1]⟩] ∧
      topologyAt tsBug 5 = [some 1, none, some 1] ∧
      bugTreeUncovered = true := by
  decide

end TsRust
